import Mathlib

/-!
Verification development for the arxiv-daily ingestion pipeline
(`scripts/arxiv_daily.py` and `scripts/enrich_today.py`).

The source code is shallowly embedded as executable Lean definitions:

* Dates are modelled as abstract day ordinals (`Nat`): the scripts only ever
  compare the calendar date of an entry's `published` field with "today",
  and the spec treats the timestamp codec as an external concern.
* The paginated arXiv feed is modelled as a flat finite list of raw entries;
  a page request at offset `start` with page size `n` returns
  `(feed.drop start).take n`, which is exactly the slice the HTTP API serves.
* `pandas.DataFrame`s are modelled as Lean lists of records, and
  `drop_duplicates(key)` / `drop_duplicates(key, keep="last")` are modelled by
  `dedupFirstBy` / `dedupLastBy` below (pandas keeps the surviving occurrence
  of every key at its original position; the default `keep` is `"first"`).
* Python string operations used by the scripts (`str.split(sep)` for a
  one-character separator, `int(...)` on an optionally signed digit string,
  `str.lower()` and the `in` substring test) are modelled on `List Char`.
-/

/-- Model of `pandas.DataFrame.drop_duplicates(key)` (default `keep="first"`),
generalized over an accumulator `seen` of keys already emitted: a row is kept
iff its key has not been seen before, and kept rows stay in their original
order. -/
def dedupFirstAux {α κ : Type} [DecidableEq κ] (k : α → κ) (seen : List κ) :
    List α → List α
  | [] => []
  | a :: as =>
    if k a ∈ seen then dedupFirstAux k seen as
    else a :: dedupFirstAux k (k a :: seen) as

/-- `drop_duplicates(key)` with the pandas default `keep="first"`. -/
def dedupFirstBy {α κ : Type} [DecidableEq κ] (k : α → κ) (l : List α) : List α :=
  dedupFirstAux k [] l

/-- `drop_duplicates(key, keep="last")`: the kept row for each key is its last
occurrence, and kept rows stay in their original order.  Keeping last
occurrences scanning left-to-right is keeping first occurrences scanning
right-to-left. -/
def dedupLastBy {α κ : Type} [DecidableEq κ] (k : α → κ) (l : List α) : List α :=
  (dedupFirstAux k [] l.reverse).reverse

/-- Python `s.split(sep)` for a one-character separator, on the character
list of the string: no collapsing, empty fields kept, `"".split(c) = [""]`. -/
def splitOnChar (sep : Char) : List Char → List (List Char)
  | [] => [[]]
  | c :: cs =>
    let r := splitOnChar sep cs
    if c = sep then [] :: r
    else
      match r with
      | h :: t => (c :: h) :: t
      | [] => [[c]]

/-- Python `s.split(sep)` for a one-character separator, producing strings. -/
def pySplit (sep : Char) (s : String) : List String :=
  (splitOnChar sep s.data).map String.mk

/-- Numeric value of a digit list, most significant digit first. -/
def digitsToNat (ds : List Char) : Nat :=
  ds.foldl (fun acc c => acc * 10 + (c.toNat - '0'.toNat)) 0

/-- Value of a nonempty all-digit character list, `none` otherwise. -/
def digitsVal (ds : List Char) : Option Nat :=
  if ds ≠ [] ∧ ds.all Char.isDigit then some (digitsToNat ds) else none

/-- Model of Python `int(s)` on its decimal forms: an optional sign followed
by a nonempty digit run (whitespace/underscore forms are not exercised by the
pipeline and are not modelled).  `none` models the `ValueError` path. -/
def pyIntChars : List Char → Option Int
  | [] => none
  | c :: rest =>
    if c = '-' then (digitsVal rest).map (fun n => -(n : Int))
    else if c = '+' then (digitsVal rest).map (fun n => (n : Int))
    else (digitsVal (c :: rest)).map (fun n => (n : Int))

/-- Model of Python `int(s)`. -/
def pyInt (s : String) : Option Int :=
  pyIntChars s.data

/-- `needle` is a contiguous leading block of `hay`. -/
def strStarts : List Char → List Char → Bool
  | [], _ => true
  | _ :: _, [] => false
  | c :: cs, d :: ds => c = d && strStarts cs ds

/-- Python's substring test `needle in hay`. -/
def charsContains (hay needle : List Char) : Bool :=
  match hay with
  | [] => needle.isEmpty
  | _ :: t => strStarts needle hay || charsContains t needle

/-- Python `needle in hay` on strings. -/
def strContains (hay needle : String) : Bool :=
  charsContains hay.data needle.data

/-- Python `s.lower()`. -/
def pyLower (s : String) : String :=
  String.mk (s.data.map Char.toLower)

/-- One `<link>` element of a feed entry, with its optional `rel` and `type`
attributes (absent attribute = `none`, matching the `getattr(l, _, "")`
defensive access in the source). -/
structure Link where
  href : String
  type : Option String
  rel : Option String
deriving DecidableEq

/-- One author of a feed entry; `affiliation` is optional per author. -/
structure FeedAuthor where
  name : String
  affiliation : Option String
deriving DecidableEq

/-- One raw entry of the arXiv Atom feed, with exactly the fields
`iter_today_entries` and `parse_entry` read.  `published` and `updated` are
abstract day ordinals; `tags` holds the category terms `t["term"]`;
`arxiv_primary_category` is the term of the explicit primary category when the
attribute is present. -/
structure RawEntry where
  id : String
  title : String
  summary : String
  published : Nat
  updated : Option Nat
  links : List Link
  tags : List String
  authors : List FeedAuthor
  doi : Option String
  journal_ref : Option String
  comment : Option String
  arxiv_primary_category : Option String
deriving DecidableEq

/-- One row of the Paper table (`papers.parquet`). -/
structure Paper where
  paper_id_version : String
  paper_id : String
  version : Int
  title : String
  summary : String
  published : Nat
  updated : Nat
  doi : Option String
  journal_ref : Option String
  comment : Option String
  primary_category : Option String
  all_categories : List String
  pdf_url : Option String
  abs_url : Option String
deriving DecidableEq

/-- Merge key of the Paper table: the `paper_id_version` column. -/
def Paper.key (p : Paper) : String := p.paper_id_version

/-- One row of the AuthorLink table (`authors.parquet`). -/
structure AuthorLink where
  paper_id_version : String
  author_name : String
  affiliation : Option String
deriving DecidableEq

/-- Composite merge key of the AuthorLink table:
`["paper_id_version", "author_name", "affiliation"]`. -/
def AuthorLink.key (r : AuthorLink) : String × String × Option String :=
  (r.paper_id_version, r.author_name, r.affiliation)

/-- One row of the CategoryLink table (`categories.parquet`). -/
structure CategoryLink where
  paper_id_version : String
  category : String
deriving DecidableEq

/-- Composite merge key of the CategoryLink table:
`["paper_id_version", "category"]`. -/
def CategoryLink.key (r : CategoryLink) : String × String :=
  (r.paper_id_version, r.category)

/-- One row of the Enrichment table (`enrichments.parquet`). -/
structure EnrichRow where
  paper_id_version : String
  tags : List String
  has_code : Bool
deriving DecidableEq

/-- Merge key of the Enrichment table: the `paper_id_version` column. -/
def EnrichRow.key (r : EnrichRow) : String := r.paper_id_version

/-- One row of the run ledger (`run_log.csv`). -/
structure RunRow where
  run_utc : String
  new_papers : Nat
  total_papers : Nat
deriving DecidableEq

/-- The persisted state the ingestion run loads and rewrites.  `runLog = none`
models an absent `run_log.csv`. -/
structure StoreState where
  papers : List Paper
  authors : List AuthorLink
  categories : List CategoryLink
  runLog : Option (List RunRow)
deriving DecidableEq

/-- One page of `iter_today_entries`'s inner `for` loop: yield entries in
order until one has `published` date strictly before `today`; in that case
stop, reporting `true` (the generator's `return`). -/
def yieldPage (today : Nat) : List RawEntry → List RawEntry × Bool
  | [] => ([], false)
  | e :: es =>
    if e.published < today then ([], true)
    else
      let r := yieldPage today es
      (e :: r.1, r.2)

/-- The `while fetched < max_results` pagination loop of `iter_today_entries`.
The feed is the flat descending-sorted entry list; the page at offset `start`
is `(feed.drop start).take pageSize`, an empty page breaks the loop, and the
boundary `return` inside a page ends the whole scan.  `fuel` is a structural
recursion bound only; every call below passes `maxResults + 1`, which is
sufficient because each non-final iteration increases `fetched` by at least
one and the loop runs only while `fetched < maxResults`. -/
def scanLoop (feed : List RawEntry) (today maxResults pageSize : Nat) :
    Nat → Nat → Nat → List RawEntry
  | 0, _, _ => []
  | fuel + 1, fetched, start =>
    if fetched < maxResults then
      let entries := (feed.drop start).take pageSize
      if entries.isEmpty then []
      else
        let r := yieldPage today entries
        if r.2 then r.1
        else r.1 ++ scanLoop feed today maxResults pageSize fuel
          (fetched + entries.length) (start + pageSize)
    else []

/-- `iter_today_entries(max_results=2000, page_size=200)`: the lazy sequence
of raw entries the scan yields, as a list. -/
def iter_today_entries (feed : List RawEntry) (today : Nat)
    (maxResults : Nat := 2000) (pageSize : Nat := 200) : List RawEntry :=
  scanLoop feed today maxResults pageSize (maxResults + 1) 0 0

/-- `parse_entry(e)`: normalize one raw entry into a Paper row, its
AuthorLink rows and its CategoryLink rows.  `none` models the `ValueError`
raised when the id does not split into exactly `<paper_id>v<version>` with an
integer version. -/
def parse_entry (e : RawEntry) :
    Option (Paper × List AuthorLink × List CategoryLink) :=
  let entry_id := (pySplit '/' e.id).getLastD ""
  match (pySplit 'v' entry_id) with
  | [base_id, vstr] =>
    match pyInt vstr with
    | some version =>
      let pdf_link :=
        (e.links.find? (fun l => decide (l.type.getD "" = "application/pdf"))).map Link.href
      let abs_link :=
        (e.links.find? (fun l => decide (l.rel.getD "" = "alternate"))).map Link.href
      let cats := e.tags
      let authorRows : List AuthorLink := e.authors.map (fun a =>
        { paper_id_version := entry_id
          author_name := a.name
          affiliation := a.affiliation })
      let paperRow : Paper :=
        { paper_id_version := entry_id
          paper_id := base_id
          version := version
          title := e.title
          summary := e.summary
          published := e.published
          updated := e.updated.getD e.published
          doi := e.doi
          journal_ref := e.journal_ref
          comment := e.comment
          primary_category :=
            match e.arxiv_primary_category with
            | some t => some t
            | none => cats.head?
          all_categories := cats
          pdf_url := pdf_link
          abs_url := abs_link }
      some (paperRow, authorRows,
        cats.map (fun c => { paper_id_version := entry_id, category := c }))
    | none => none
  | _ => none

/-- The per-entry parse loop of `main`: parse every scanned entry, failing
the whole run when any single entry fails (`ValueError` propagates). -/
def parseAll : List RawEntry →
    Option (List (Paper × List AuthorLink × List CategoryLink))
  | [] => some []
  | e :: es =>
    match parse_entry e, parseAll es with
    | some t, some ts => some (t :: ts)
    | _, _ => none

/-- Paper-table merge of `main`:
`pd.concat([papers, np_df]).drop_duplicates("paper_id_version", keep="last")`
where `np_df` is `new_papers` deduplicated by key with the pandas default
`keep="first"`. -/
def mergePapers (existing newRows : List Paper) : List Paper :=
  dedupLastBy Paper.key (existing ++ dedupFirstBy Paper.key newRows)

/-- AuthorLink-table merge of `main`:
`pd.concat([authors, na_df]).drop_duplicates(compositeKey)` — default
`keep="first"` in both deduplication steps. -/
def mergeAuthors (existing newRows : List AuthorLink) : List AuthorLink :=
  dedupFirstBy AuthorLink.key (existing ++ dedupFirstBy AuthorLink.key newRows)

/-- CategoryLink-table merge of `main`, same shape as the AuthorLink merge. -/
def mergeCategories (existing newRows : List CategoryLink) : List CategoryLink :=
  dedupFirstBy CategoryLink.key (existing ++ dedupFirstBy CategoryLink.key newRows)

/-- `main()` of `scripts/arxiv_daily.py` as a pure state transformer.
`st` is the loaded persisted state, `feed` the descending-sorted feed,
`today` the UTC date and `runTs` the run timestamp.  `none` models an aborted
run (an entry failed to parse); an empty scan prints and returns without
touching any file. -/
def mainRun (st : StoreState) (feed : List RawEntry) (today : Nat)
    (runTs : String) : Option StoreState :=
  match parseAll (iter_today_entries feed today 2000 200) with
  | none => none
  | some parsed =>
    let new_papers := parsed.map (fun t => t.1)
    if new_papers.isEmpty then some st
    else
      let np_df := dedupFirstBy Paper.key new_papers
      let papers := mergePapers st.papers new_papers
      let authors := mergeAuthors st.authors ((parsed.map (fun t => t.2.1)).flatten)
      let categories := mergeCategories st.categories ((parsed.map (fun t => t.2.2)).flatten)
      let run : RunRow :=
        { run_utc := runTs
          new_papers := np_df.length
          total_papers := papers.length }
      some { papers := papers
             authors := authors
             categories := categories
             runLog := some (st.runLog.getD [] ++ [run]) }

/-- `simple_keywords(text)` of `scripts/enrich_today.py`.  Python's
`list(set(tags))` returns the distinct tags in unspecified order; it is
modelled as `eraseDups` (the construction cannot produce duplicates, so as a
set of strings this is exact). -/
def simple_keywords (text : String) : List String :=
  let t := pyLower text
  let tags :=
    (if ["large language model", "llm", "gpt"].any (fun kw => strContains t kw)
      then ["llm"] else []) ++
    (if strContains t "reinforcement learning" || strContains t "rl "
      then ["reinforcement-learning"] else []) ++
    (if strContains t "diffusion" then ["diffusion"] else []) ++
    (if strContains t "graph neural" || strContains t "gnn"
      then ["gnn"] else []) ++
    (if strContains t "federated" then ["federated-learning"] else [])
  tags.eraseDups

/-- The enrichment row computed for one paper published today:
`text = f"{title}\n\n{summary}"`, keyword tags, and the `has_code` probe. -/
def mkEnrichRow (p : Paper) : EnrichRow :=
  let text := p.title ++ "\n\n" ++ p.summary
  { paper_id_version := p.paper_id_version
    tags := simple_keywords text
    has_code := ["github.com", "code", "implementation"].any
      (fun kw => strContains (pyLower text) kw) }

/-- The new enrichment rows of one run: one per paper whose `published` date
equals `today`. -/
def enrichRows (papers : List Paper) (today : Nat) : List EnrichRow :=
  (papers.filter (fun p => decide (p.published = today))).map mkEnrichRow

/-- `main()` of `scripts/enrich_today.py` as a pure function from the loaded
Paper table and the previously persisted Enrichment table (`none` = file
absent) to the table it writes; `none` models the early `return` when no
paper matches today (nothing is written). -/
def enrichRun (papers : List Paper) (prev : Option (List EnrichRow))
    (today : Nat) : Option (List EnrichRow) :=
  let rows := enrichRows papers today
  if rows.isEmpty then none
  else
    match prev with
    | some pr => some (dedupLastBy EnrichRow.key (pr ++ rows))
    | none => some rows

/-- A Paper row with the given key and title and neutral remaining fields,
used for concrete test tables. -/
def samplePaper (pid : String) (title : String) : Paper :=
  { paper_id_version := pid
    paper_id := "x"
    version := 1
    title := title
    summary := ""
    published := 0
    updated := 0
    doi := none
    journal_ref := none
    comment := none
    primary_category := none
    all_categories := []
    pdf_url := none
    abs_url := none }

/-- A feed entry with the given published date and neutral remaining fields,
used for concrete scanner inputs. -/
def sampleEntry (id : String) (published : Nat) : RawEntry :=
  { id := id
    title := ""
    summary := ""
    published := published
    updated := none
    links := []
    tags := []
    authors := []
    doi := none
    journal_ref := none
    comment := none
    arxiv_primary_category := none }

/-- An existing Paper row for key `1v1`. -/
def c3Old : Paper := samplePaper "1v1" "old title"

/-- A new Paper row for the same key `1v1` with different field values. -/
def c3New : Paper := samplePaper "1v1" "new title"

/-- A feed of 2300 entries with strictly decreasing published dates, all of
them on or after day 0. -/
def cexFeedC2 : List RawEntry :=
  (List.range 2300).map (fun i => sampleEntry "http://arxiv.org/abs/1.1v1" (3000 - i))

/-- A two-entry feed: one entry on day 5, one on day 3. -/
def witFeedC2 : List RawEntry :=
  [sampleEntry "http://arxiv.org/abs/1.1v1" 5, sampleEntry "http://arxiv.org/abs/1.2v1" 3]

/-- A store whose run ledger exists and is empty. -/
def st6 : StoreState := { papers := [], authors := [], categories := [], runLog := some [] }

/-- A parseable feed entry published on day 5. -/
def wEntry : RawEntry := sampleEntry "http://arxiv.org/abs/1111.0001v1" 5

/-- The Paper row `parse_entry` produces for `wEntry`. -/
def wPaper : Paper :=
  { paper_id_version := "1111.0001v1"
    paper_id := "1111.0001"
    version := 1
    title := ""
    summary := ""
    published := 5
    updated := 5
    doi := none
    journal_ref := none
    comment := none
    primary_category := none
    all_categories := []
    pdf_url := none
    abs_url := none }

/-- A store already holding a row for `wEntry`'s key, with an absent ledger. -/
def stW : StoreState :=
  { papers := [samplePaper "1111.0001v1" "old"], authors := [], categories := [], runLog := none }

/-- The concrete entry of the parse round-trip scenario. -/
def e7 : RawEntry :=
  { id := "http://arxiv.org/abs/2501.01234v2"
    title := "T"
    summary := "S"
    published := 7
    updated := some 8
    links := [{ href := "http://arxiv.org/pdf/2501.01234v2", type := some "application/pdf", rel := none },
              { href := "http://arxiv.org/abs/2501.01234v2", type := none, rel := some "alternate" }]
    tags := ["cs.LG", "cs.AI"]
    authors := [{ name := "A. Author", affiliation := none }]
    doi := none
    journal_ref := none
    comment := none
    arxiv_primary_category := some "cs.LG" }

/-- An entry whose id has version suffix `0`: accepted by the normalizer. -/
def e8 : RawEntry := sampleEntry "http://arxiv.org/abs/1234v0" 0

/-- An entry whose id has version suffix `3`. -/
def e8w : RawEntry := sampleEntry "http://arxiv.org/abs/1234v3" 0

/-- A Paper row published on day 0, for the enrichment scenario. -/
def p9 : Paper := samplePaper "1v1" "some results"


section DedupLemmas

variable {α κ : Type} [DecidableEq κ] {k : α → κ}

theorem dedupFirstAux_congr {s₁ s₂ : List κ} (h : ∀ c, c ∈ s₁ ↔ c ∈ s₂) :
    ∀ l : List α, dedupFirstAux k s₁ l = dedupFirstAux k s₂ l := by
  intro l
  induction l generalizing s₁ s₂ with
  | nil => rfl
  | cons a as ih =>
    simp only [dedupFirstAux]
    by_cases hm : k a ∈ s₁
    · rw [if_pos hm, if_pos ((h _).mp hm)]
      exact ih h
    · rw [if_neg hm, if_neg (fun hc => hm ((h _).mpr hc))]
      refine congrArg _ (ih ?_)
      intro c
      simp only [List.mem_cons, h c]

theorem dedupFirstAux_append (A B : List α) (s : List κ) :
    dedupFirstAux k s (A ++ B) =
      dedupFirstAux k s A ++ dedupFirstAux k (A.map k ++ s) B := by
  induction A generalizing s with
  | nil => rfl
  | cons a A ih =>
    simp only [List.cons_append, dedupFirstAux, List.map_cons, List.append_eq]
    by_cases hm : k a ∈ s
    · rw [if_pos hm, if_pos hm, ih s]
      refine congrArg _ (dedupFirstAux_congr ?_ B)
      intro c
      simp only [List.cons_append, List.mem_cons, List.mem_append]
      constructor
      · intro h; tauto
      · rintro (h | h | h)
        · subst h; tauto
        · tauto
        · tauto
    · rw [if_neg hm, if_neg hm, ih (k a :: s), List.cons_append]
      refine congrArg _ (congrArg _ (dedupFirstAux_congr ?_ B))
      intro c
      simp only [List.mem_append, List.mem_cons]
      tauto

theorem mem_of_mem_dedupFirstAux {l : List α} {s : List κ} {x : α}
    (h : x ∈ dedupFirstAux k s l) : x ∈ l := by
  induction l generalizing s with
  | nil => simp [dedupFirstAux] at h
  | cons a as ih =>
    simp only [dedupFirstAux] at h
    by_cases hm : k a ∈ s
    · rw [if_pos hm] at h
      exact List.mem_cons_of_mem _ (ih h)
    · rw [if_neg hm] at h
      rcases List.mem_cons.mp h with h | h
      · exact h ▸ List.mem_cons_self _ _
      · exact List.mem_cons_of_mem _ (ih h)

theorem dedupFirstAux_eq_nil {l : List α} {s : List κ}
    (h : ∀ x ∈ l, k x ∈ s) : dedupFirstAux k s l = [] := by
  induction l with
  | nil => rfl
  | cons a as ih =>
    simp only [dedupFirstAux]
    rw [if_pos (h a (List.mem_cons_self _ _))]
    exact ih (fun x hx => h x (List.mem_cons_of_mem _ hx))

theorem dedupFirstAux_eq_self {l : List α} {s : List κ}
    (hn : (l.map k).Nodup) (h : ∀ x ∈ l, k x ∉ s) :
    dedupFirstAux k s l = l := by
  induction l generalizing s with
  | nil => rfl
  | cons a as ih =>
    simp only [List.map_cons, List.nodup_cons] at hn
    simp only [dedupFirstAux]
    rw [if_neg (h a (List.mem_cons_self _ _))]
    refine congrArg _ (ih hn.2 ?_)
    intro x hx
    simp only [List.mem_cons]
    rintro (hk | hk)
    · exact hn.1 (hk ▸ List.mem_map_of_mem k hx)
    · exact h x (List.mem_cons_of_mem _ hx) hk

theorem key_not_mem_seen_of_mem_dedupFirstAux {l : List α} {s : List κ} {x : α}
    (h : x ∈ dedupFirstAux k s l) : k x ∉ s := by
  induction l generalizing s with
  | nil => simp [dedupFirstAux] at h
  | cons a as ih =>
    simp only [dedupFirstAux] at h
    by_cases hm : k a ∈ s
    · rw [if_pos hm] at h
      exact ih h
    · rw [if_neg hm] at h
      rcases List.mem_cons.mp h with h | h
      · exact h ▸ hm
      · intro hs
        exact ih h (List.mem_cons_of_mem _ hs)

theorem dedupFirstAux_keys_nodup (l : List α) (s : List κ) :
    ((dedupFirstAux k s l).map k).Nodup := by
  induction l generalizing s with
  | nil => simp [dedupFirstAux]
  | cons a as ih =>
    simp only [dedupFirstAux]
    by_cases hm : k a ∈ s
    · rw [if_pos hm]; exact ih s
    · rw [if_neg hm]
      simp only [List.map_cons, List.nodup_cons]
      refine ⟨?_, ih (k a :: s)⟩
      intro hmem
      rcases List.mem_map.mp hmem with ⟨y, hy, hky⟩
      exact key_not_mem_seen_of_mem_dedupFirstAux hy (hky ▸ List.mem_cons_self _ _)

theorem key_mem_of_mem_dedupFirstAux {l : List α} {s : List κ} {x : α}
    (h : x ∈ l) : k x ∈ s ∨ ∃ y ∈ dedupFirstAux k s l, k y = k x := by
  induction l generalizing s with
  | nil => simp at h
  | cons a as ih =>
    simp only [dedupFirstAux]
    rcases List.mem_cons.mp h with h | h
    · subst h
      by_cases hm : k x ∈ s
      · exact Or.inl hm
      · rw [if_neg hm]
        exact Or.inr ⟨x, List.mem_cons_self _ _, rfl⟩
    · by_cases hm : k a ∈ s
      · rw [if_pos hm]
        exact ih h
      · rw [if_neg hm]
        rcases ih (s := k a :: s) h with hk | ⟨y, hy, hky⟩
        · rcases List.mem_cons.mp hk with hk | hk
          · exact Or.inr ⟨a, List.mem_cons_self _ _, hk.symm⟩
          · exact Or.inl hk
        · exact Or.inr ⟨y, List.mem_cons_of_mem _ hy, hky⟩

theorem find?_eq_of_mem_dedupFirstAux {l : List α} {s : List κ} {x : α}
    (h : x ∈ dedupFirstAux k s l) :
    l.find? (fun y => decide (k y = k x)) = some x := by
  induction l generalizing s with
  | nil => simp [dedupFirstAux] at h
  | cons a as ih =>
    simp only [dedupFirstAux] at h
    by_cases hm : k a ∈ s
    · rw [if_pos hm] at h
      have hne : k a ≠ k x := by
        intro he
        exact key_not_mem_seen_of_mem_dedupFirstAux h (he ▸ hm)
      rw [List.find?_cons_of_neg _ (by simpa using hne)]
      exact ih h
    · rw [if_neg hm] at h
      rcases List.mem_cons.mp h with h | h
      · subst h
        exact List.find?_cons_of_pos _ (by simp)
      · have hne : k a ≠ k x := by
          intro he
          exact key_not_mem_seen_of_mem_dedupFirstAux h
            (he ▸ List.mem_cons_self _ _)
        rw [List.find?_cons_of_neg _ (by simpa using hne)]
        exact ih h

end DedupLemmas

section DedupDerived

variable {α κ : Type} [DecidableEq κ] {k : α → κ}

theorem mem_of_mem_dedupFirstBy {l : List α} {x : α}
    (h : x ∈ dedupFirstBy k l) : x ∈ l :=
  mem_of_mem_dedupFirstAux h

theorem dedupFirstBy_keys_nodup (l : List α) :
    ((dedupFirstBy k l).map k).Nodup :=
  dedupFirstAux_keys_nodup l []

theorem dedupLastBy_keys_nodup (l : List α) :
    ((dedupLastBy k l).map k).Nodup := by
  unfold dedupLastBy
  rw [List.map_reverse]
  exact List.nodup_reverse.mpr (dedupFirstAux_keys_nodup l.reverse [])

theorem mem_of_mem_dedupLastBy {l : List α} {x : α}
    (h : x ∈ dedupLastBy k l) : x ∈ l := by
  unfold dedupLastBy at h
  rw [List.mem_reverse] at h
  exact List.mem_reverse.mp (mem_of_mem_dedupFirstAux h)

theorem mem_dedupLastBy_of_mem {A B : List α} {x : α}
    (hn : (B.map k).Nodup) (hx : x ∈ B) : x ∈ dedupLastBy k (A ++ B) := by
  unfold dedupLastBy
  rw [List.mem_reverse, List.reverse_append, dedupFirstAux_append]
  apply List.mem_append_left
  rw [dedupFirstAux_eq_self ?_ ?_]
  · exact List.mem_reverse.mpr hx
  · rw [List.map_reverse]
    exact List.nodup_reverse.mpr hn
  · intro y hy
    simp

theorem dedupLastBy_merge_idem (T N : List α) :
    dedupLastBy k (dedupLastBy k (T ++ N) ++ N) = dedupLastBy k (T ++ N) := by
  have hM : (dedupLastBy k (T ++ N)).reverse
      = dedupFirstAux k [] N.reverse
        ++ dedupFirstAux k (N.reverse.map k) T.reverse := by
    show ((dedupFirstAux k [] (T ++ N).reverse).reverse).reverse = _
    rw [List.reverse_reverse, List.reverse_append, dedupFirstAux_append,
      List.append_nil]
  have h1 : dedupFirstAux k (N.reverse.map k)
      (dedupFirstAux k [] N.reverse) = [] := by
    apply dedupFirstAux_eq_nil
    intro x hx
    exact List.mem_map_of_mem k (mem_of_mem_dedupFirstAux hx)
  have h2 : dedupFirstAux k
      ((dedupFirstAux k [] N.reverse).map k ++ N.reverse.map k)
      (dedupFirstAux k (N.reverse.map k) T.reverse)
      = dedupFirstAux k (N.reverse.map k) T.reverse := by
    apply dedupFirstAux_eq_self (dedupFirstAux_keys_nodup _ _)
    intro x hx
    have hxs : k x ∉ N.reverse.map k :=
      key_not_mem_seen_of_mem_dedupFirstAux hx
    rw [List.mem_append]
    rintro (hc | hc)
    · rcases List.mem_map.mp hc with ⟨y, hy, hky⟩
      exact hxs (hky ▸ List.mem_map_of_mem k (mem_of_mem_dedupFirstAux hy))
    · exact hxs hc
  show (dedupFirstAux k [] ((dedupLastBy k (T ++ N) ++ N).reverse)).reverse = _
  rw [List.reverse_append, dedupFirstAux_append, List.append_nil, hM,
    dedupFirstAux_append, h1, h2, List.nil_append, ← hM, List.reverse_reverse]

theorem dedupFirstBy_merge_idem (T N : List α) :
    dedupFirstBy k (dedupFirstBy k (T ++ N) ++ N) = dedupFirstBy k (T ++ N) := by
  have h3 : dedupFirstAux k [] (dedupFirstAux k [] (T ++ N))
      = dedupFirstAux k [] (T ++ N) := by
    apply dedupFirstAux_eq_self (dedupFirstAux_keys_nodup _ _)
    intro x hx
    simp
  have hmem : ∀ x ∈ N, k x ∈ (dedupFirstAux k [] (T ++ N)).map k := by
    intro x hx
    rcases key_mem_of_mem_dedupFirstAux (k := k) (s := ([] : List κ))
        (List.mem_append_right T hx) with h | ⟨y, hy, hky⟩
    · simp at h
    · rw [← hky]
      exact List.mem_map_of_mem k hy
  have h4 : dedupFirstAux k ((dedupFirstAux k [] (T ++ N)).map k ++ [])
      N = [] := by
    apply dedupFirstAux_eq_nil
    intro x hx
    rw [List.append_nil]
    exact hmem x hx
  unfold dedupFirstBy
  rw [dedupFirstAux_append, h3, h4, List.append_nil]

theorem eq_of_keys_nodup {l : List α} (hn : (l.map k).Nodup) {x y : α}
    (hx : x ∈ l) (hy : y ∈ l) (hk : k x = k y) : x = y := by
  by_contra hne
  have hp : l.Pairwise (fun a b => k a ≠ k b) := List.pairwise_map.mp hn
  have hsymm : Symmetric (fun a b : α => k a ≠ k b) := by
    intro a b h h2
    exact h h2.symm
  exact hp.forall hsymm hx hy hne hk

theorem find?_eq_some_of_keys_nodup {t : List α} (hn : (t.map k).Nodup)
    {x : α} {c : κ} (hx : x ∈ t) (hk : k x = c) :
    t.find? (fun y => decide (k y = c)) = some x := by
  induction t with
  | nil => simp at hx
  | cons a t ih =>
    simp only [List.map_cons, List.nodup_cons] at hn
    by_cases ha : k a = c
    · rw [List.find?_cons_of_pos _ (by simpa using ha)]
      rcases List.mem_cons.mp hx with h | h
      · rw [h]
      · exfalso
        have : k a = k x := ha.trans hk.symm
        exact hn.1 (this ▸ List.mem_map_of_mem k h)
    · rw [List.find?_cons_of_neg _ (by simpa using ha)]
      rcases List.mem_cons.mp hx with h | h
      · exact absurd (h ▸ hk) ha
      · exact ih hn.2 h

theorem dedupFirstBy_length (l : List α) :
    (dedupFirstBy k l).length = ((l.map k).toFinset).card := by
  have h1 : ((dedupFirstBy k l).map k).Nodup := dedupFirstBy_keys_nodup l
  have h2 : ((dedupFirstBy k l).map k).toFinset = (l.map k).toFinset := by
    apply Finset.ext
    intro c
    simp only [List.mem_toFinset, List.mem_map]
    constructor
    · rintro ⟨x, hx, rfl⟩
      exact ⟨x, mem_of_mem_dedupFirstBy hx, rfl⟩
    · rintro ⟨x, hx, rfl⟩
      rcases key_mem_of_mem_dedupFirstAux (k := k) (s := ([] : List κ)) hx
        with h | ⟨y, hy, hky⟩
      · simp at h
      · exact ⟨y, hy, hky⟩
  calc (dedupFirstBy k l).length
      = ((dedupFirstBy k l).map k).length := (List.length_map _ _).symm
    _ = ((dedupFirstBy k l).map k).toFinset.card :=
        (List.toFinset_card_of_nodup h1).symm
    _ = (l.map k).toFinset.card := by rw [h2]

end DedupDerived

/-- C1: for every existing table and every list of new rows, the merged
result contains no two rows with equal key — no two rows of the merged Paper
table share `paper_id_version`, and no two rows of the merged AuthorLink
(key: `paper_id_version`, `author_name`, `affiliation`) or CategoryLink
(key: `paper_id_version`, `category`) tables share their composite key. -/
theorem merge_key_uniqueness :
    (∀ T N : List Paper, ((mergePapers T N).map Paper.key).Nodup) ∧
    (∀ T N : List AuthorLink, ((mergeAuthors T N).map AuthorLink.key).Nodup) ∧
    (∀ T N : List CategoryLink,
      ((mergeCategories T N).map CategoryLink.key).Nodup) := by
  refine ⟨fun T N => ?_, fun T N => ?_, fun T N => ?_⟩
  · unfold mergePapers
    exact dedupLastBy_keys_nodup _
  · unfold mergeAuthors
    exact dedupFirstBy_keys_nodup _
  · unfold mergeCategories
    exact dedupFirstBy_keys_nodup _

/-- C4: for each of the three tables with its respective key, merging the
same list of new rows into a table twice yields the same resulting table as
merging it once. -/
theorem merge_idempotent :
    (∀ T N : List Paper, mergePapers (mergePapers T N) N = mergePapers T N) ∧
    (∀ T N : List AuthorLink,
      mergeAuthors (mergeAuthors T N) N = mergeAuthors T N) ∧
    (∀ T N : List CategoryLink,
      mergeCategories (mergeCategories T N) N = mergeCategories T N) := by
  refine ⟨fun T N => ?_, fun T N => ?_, fun T N => ?_⟩
  · unfold mergePapers
    exact dedupLastBy_merge_idem T (dedupFirstBy Paper.key N)
  · unfold mergeAuthors
    exact dedupFirstBy_merge_idem T (dedupFirstBy AuthorLink.key N)
  · unfold mergeCategories
    exact dedupFirstBy_merge_idem T (dedupFirstBy CategoryLink.key N)

/-- C3: if the existing Paper table has a row with key `K` and the new rows
contain a (single) row `r` with the same key `K` and different field values,
the merged table contains `r` and every merged row with key `K` is exactly
`r`: the existing row is replaced wholesale, not merged field-by-field. -/
theorem merge_last_write_wins (T N : List Paper) (K : String) (r : Paper)
    (hmem : r ∈ N) (hkey : Paper.key r = K)
    (huniq : ∀ r' ∈ N, Paper.key r' = K → r' = r)
    (hold : ∃ p ∈ T, Paper.key p = K ∧ p ≠ r) :
    r ∈ mergePapers T N ∧
      ∀ r' ∈ mergePapers T N, Paper.key r' = K → r' = r := by
  have hrN : r ∈ dedupFirstBy Paper.key N := by
    rcases key_mem_of_mem_dedupFirstAux (k := Paper.key)
        (s := ([] : List String)) hmem with h | ⟨y, hy, hky⟩
    · simp at h
    · have hyr : y = r :=
        huniq y (mem_of_mem_dedupFirstBy hy) (hky.trans hkey)
      rw [← hyr]
      exact hy
  have hmerged : r ∈ mergePapers T N := by
    unfold mergePapers
    exact mem_dedupLastBy_of_mem (dedupFirstBy_keys_nodup N) hrN
  refine ⟨hmerged, ?_⟩
  intro r' hr' hk'
  have hnodup : ((mergePapers T N).map Paper.key).Nodup := by
    unfold mergePapers
    exact dedupLastBy_keys_nodup _
  exact eq_of_keys_nodup hnodup hr' hmerged (hk'.trans hkey.symm)

/-- Witness for C3 at a concrete input: table `[c3Old]`, new rows `[c3New]`,
both with key `1v1` and different titles; the merged table holds exactly
`c3New` at that key. -/
theorem merge_last_write_wins_witness :
    c3New ∈ mergePapers [c3Old] [c3New] ∧
      ∀ r' ∈ mergePapers [c3Old] [c3New], Paper.key r' = "1v1" → r' = c3New :=
  merge_last_write_wins [c3Old] [c3New] "1v1" c3New (by decide) (by decide)
    (by decide) (by decide)

/-- C5 counterexample: the claim says step 1 of the merge keeps the LAST
occurrence among new rows sharing a key; the source calls
`drop_duplicates(key)` with the pandas default `keep="first"`, so for the
new-row list `[c3Old, c3New]` (equal keys, different titles) the retained
row is the first occurrence `c3Old`, not the later `c3New`. -/
theorem newrows_dedup_keeps_first_cex :
    dedupFirstBy Paper.key [c3Old, c3New] = [c3Old] ∧ c3Old ≠ c3New := by
  constructor
  · decide
  · decide

/-- C5 as amended: step 1 deduplicates the new rows against themselves by
the table's key keeping the FIRST occurrence: every row retained by the
step-1 deduplication is the earliest row of the new-row list bearing its
key. -/
theorem newrows_dedup_first_occurrence {α κ : Type} [DecidableEq κ]
    (k : α → κ) (N : List α) (r : α) (h : r ∈ dedupFirstBy k N) :
    N.find? (fun y => decide (k y = k r)) = some r :=
  find?_eq_of_mem_dedupFirstAux h

/-- Witness for the amended C5 at a concrete input. -/
theorem newrows_dedup_first_occurrence_witness :
    c3Old ∈ dedupFirstBy Paper.key [c3Old, c3New] ∧
      [c3Old, c3New].find?
        (fun y => decide (Paper.key y = Paper.key c3Old)) = some c3Old :=
  ⟨by decide,
   newrows_dedup_first_occurrence Paper.key [c3Old, c3New] c3Old (by decide)⟩

section ScannerLemmas

theorem takeWhile_all_eq {α : Type} (p : α → Bool) :
    ∀ (l : List α), (∀ a ∈ l, p a = true) → l.takeWhile p = l
  | [], _ => rfl
  | a :: t, h => by
    rw [List.takeWhile_cons_of_pos (h a (List.mem_cons_self _ _))]
    simp only [List.cons.injEq, true_and]
    exact takeWhile_all_eq p t (fun x hx => h x (List.mem_cons_of_mem _ hx))

theorem takeWhile_append_of_all {α : Type} (p : α → Bool) :
    ∀ (A B : List α), (∀ a ∈ A, p a = true) →
      (A ++ B).takeWhile p = A ++ B.takeWhile p
  | [], B, _ => rfl
  | a :: A, B, h => by
    rw [List.cons_append,
      List.takeWhile_cons_of_pos (h a (List.mem_cons_self _ _)),
      List.cons_append]
    simp only [List.cons.injEq, true_and]
    exact takeWhile_append_of_all p A B
      (fun x hx => h x (List.mem_cons_of_mem _ hx))

theorem takeWhile_append_of_break {α : Type} (p : α → Bool) :
    ∀ (A B : List α), (∃ a ∈ A, p a = false) →
      (A ++ B).takeWhile p = A.takeWhile p
  | [], _, h => by simp at h
  | a :: A, B, h => by
    by_cases ha : p a = true
    · rw [List.cons_append, List.takeWhile_cons_of_pos ha,
        List.takeWhile_cons_of_pos ha]
      simp only [List.cons.injEq, true_and]
      apply takeWhile_append_of_break p A B
      rcases h with ⟨x, hx, hpx⟩
      rcases List.mem_cons.mp hx with hx | hx
      · subst hx
        rw [ha] at hpx
        exact absurd hpx (by simp)
      · exact ⟨x, hx, hpx⟩
    · rw [List.cons_append, List.takeWhile_cons_of_neg ha,
        List.takeWhile_cons_of_neg ha]

theorem yieldPage_eq (today : Nat) (l : List RawEntry) :
    yieldPage today l =
      (l.takeWhile (fun e => decide (today ≤ e.published)),
       l.any (fun e => decide (e.published < today))) := by
  induction l with
  | nil => rfl
  | cons e es ih =>
    simp only [yieldPage, List.any_cons]
    by_cases h : e.published < today
    · rw [if_pos h]
      rw [List.takeWhile_cons_of_neg (by simp [Nat.not_le.mpr h])]
      simp [h]
    · rw [if_neg h, ih]
      rw [List.takeWhile_cons_of_pos (by simp [Nat.le_of_not_lt h])]
      simp [h]

theorem min_le_takeWhile_length {α : Type} (p : α → Bool) :
    ∀ (l : List α) (n : Nat), (∀ x ∈ l.take n, p x = true) →
      min n l.length ≤ (l.takeWhile p).length
  | [], n, _ => by simp
  | a :: t, 0, _ => by simp
  | a :: t, n + 1, h => by
    have ha : p a = true := h a (by simp [List.take_succ_cons])
    rw [List.takeWhile_cons_of_pos ha]
    have ht := min_le_takeWhile_length p t n
      (fun x hx => h x (by simp [List.take_succ_cons, hx]))
    simp only [List.length_cons]
    omega

theorem scanLoop_eq_nil_of_ge (feed : List RawEntry)
    (today maxResults pageSize fuel fetched start : Nat)
    (h : maxResults ≤ fetched) :
    scanLoop feed today maxResults pageSize fuel fetched start = [] := by
  cases fuel with
  | zero => rfl
  | succ fuel => simp [scanLoop, Nat.not_lt.mpr h]

theorem scanLoop_spec (feed : List RawEntry) (today maxResults pageSize : Nat)
    (hps : 0 < pageSize)
    (hpre : (feed.takeWhile (fun e => decide (today ≤ e.published))).length
      < maxResults) :
    ∀ (fuel fetched start : Nat),
      maxResults - fetched < fuel →
      fetched = min start feed.length →
      (∀ x ∈ feed.take start, decide (today ≤ x.published) = true) →
      scanLoop feed today maxResults pageSize fuel fetched start =
        (feed.drop start).takeWhile (fun e => decide (today ≤ e.published)) := by
  intro fuel
  induction fuel with
  | zero =>
    intro fetched start hfuel hmin hpref
    omega
  | succ fuel ih =>
    intro fetched start hfuel hmin hpref
    have hfe : fetched < maxResults := by
      have h1 := min_le_takeWhile_length
        (fun e => decide (today ≤ e.published)) feed start hpref
      omega
    simp only [scanLoop]
    rw [if_pos hfe]
    by_cases hnil : (feed.drop start).take pageSize = []
    · have hemp : ((feed.drop start).take pageSize).isEmpty = true := by
        rw [List.isEmpty_iff]
        exact hnil
      rw [hemp, if_pos rfl]
      rcases List.take_eq_nil_iff.mp hnil with h | h
      · omega
      · rw [h]
        rfl
    · have hsplit : feed.drop start =
          (feed.drop start).take pageSize ++ feed.drop (start + pageSize) := by
        rw [← List.drop_drop]
        exact (List.take_append_drop pageSize (feed.drop start)).symm
      have hemp : ((feed.drop start).take pageSize).isEmpty = false := by
        simp [List.isEmpty_iff, hnil]
      rw [hemp]
      simp only [Bool.false_eq_true, if_false, yieldPage_eq]
      have hlenpos : 0 < ((feed.drop start).take pageSize).length :=
        List.length_pos.mpr hnil
      by_cases hstop :
          ((feed.drop start).take pageSize).any
            (fun e => decide (e.published < today)) = true
      · rw [hstop]
        simp only [if_true]
        conv_rhs => rw [hsplit]
        refine (takeWhile_append_of_break _ _ _ ?_).symm
        rcases List.any_eq_true.mp hstop with ⟨x, hx, hpx⟩
        refine ⟨x, hx, ?_⟩
        simp only [decide_eq_true_eq] at hpx
        simp [Nat.not_le.mpr hpx]
      · rw [Bool.not_eq_true] at hstop
        rw [hstop]
        simp only [Bool.false_eq_true, if_false]
        have hall : ∀ x ∈ (feed.drop start).take pageSize,
            decide (today ≤ x.published) = true := by
          intro x hx
          have hnotlt := List.any_eq_false.mp hstop x hx
          simp only [decide_eq_true_eq] at hnotlt ⊢
          omega
        rw [takeWhile_all_eq _ _ hall]
        have hstartlt : start < feed.length := by
          by_contra hge
          exact hnil (by simp [List.drop_eq_nil_of_le (Nat.le_of_not_lt hge)])
        have hlen : ((feed.drop start).take pageSize).length
            = min pageSize (feed.length - start) := by
          simp [List.length_take, List.length_drop]
        have hrec := ih (fetched + ((feed.drop start).take pageSize).length)
          (start + pageSize) (by omega) (by omega)
          (by
            intro x hx
            rw [List.take_add] at hx
            rcases List.mem_append.mp hx with hx | hx
            · exact hpref x hx
            · exact hall x hx)
        rw [hrec]
        conv_rhs => rw [hsplit]
        exact (takeWhile_append_of_all _ _ _ hall).symm

theorem scanLoop_length_le (feed : List RawEntry)
    (today maxResults pageSize : Nat) :
    ∀ (fuel fetched start : Nat),
      (scanLoop feed today maxResults pageSize fuel fetched start).length
        ≤ (maxResults - fetched) + pageSize := by
  intro fuel
  induction fuel with
  | zero =>
    intro fetched start
    simp [scanLoop]
  | succ fuel ih =>
    intro fetched start
    simp only [scanLoop]
    by_cases hfe : fetched < maxResults
    · rw [if_pos hfe]
      by_cases hnil : (feed.drop start).take pageSize = []
      · simp [List.isEmpty_iff, hnil]
      · have hemp : ((feed.drop start).take pageSize).isEmpty = false := by
          simp [List.isEmpty_iff, hnil]
        rw [hemp]
        simp only [Bool.false_eq_true, if_false, yieldPage_eq]
        have hlenpos : 0 < ((feed.drop start).take pageSize).length :=
          List.length_pos.mpr hnil
        have htw : (((feed.drop start).take pageSize).takeWhile
            (fun e => decide (today ≤ e.published))).length
            ≤ ((feed.drop start).take pageSize).length :=
          List.Sublist.length_le (List.takeWhile_sublist _)
        have htake : ((feed.drop start).take pageSize).length ≤ pageSize :=
          List.length_take_le _ _
        by_cases hstop :
            ((feed.drop start).take pageSize).any
              (fun e => decide (e.published < today)) = true
        · rw [hstop]
          simp only [if_true]
          omega
        · rw [Bool.not_eq_true] at hstop
          rw [hstop]
          simp only [Bool.false_eq_true, if_false, List.length_append]
          by_cases hlt :
              fetched + ((feed.drop start).take pageSize).length < maxResults
          · have hrec := ih
              (fetched + ((feed.drop start).take pageSize).length)
              (start + pageSize)
            omega
          · rw [scanLoop_eq_nil_of_ge feed today maxResults pageSize fuel
              (fetched + ((feed.drop start).take pageSize).length)
              (start + pageSize) (Nat.le_of_not_lt hlt)]
            simp only [List.length_nil]
            omega
    · rw [if_neg hfe]
      simp

end ScannerLemmas

/-- C2 counterexample: the claim asserts that for EVERY strictly
date-descending feed the scan yields the whole prefix of entries with date
on or after the target.  With the source's parameters
(`max_results=2000`, `page_size=200`), a feed of 2300 in-range entries is
truncated by the `while fetched < max_results` cap: the scan stops after at
most 2200 entries, so its output is not the 2300-entry prefix. -/
theorem scan_boundary_cap_cex :
    cexFeedC2.Pairwise (fun a b => b.published < a.published) ∧
      iter_today_entries cexFeedC2 0 2000 200 ≠
        cexFeedC2.takeWhile (fun e => decide ((0 : Nat) ≤ e.published)) := by
  constructor
  · unfold cexFeedC2
    rw [List.pairwise_map]
    refine (List.pairwise_lt_range 2300).imp_of_mem ?_
    intro i j hi hj hij
    rw [List.mem_range] at hi hj
    simp only [sampleEntry]
    omega
  · intro hcontra
    have hlen := scanLoop_length_le cexFeedC2 0 2000 200 (2000 + 1) 0 0
    have hall : ∀ a ∈ cexFeedC2,
        (fun e => decide ((0 : Nat) ≤ e.published)) a = true := by
      intro a ha
      simp
    have htw : cexFeedC2.takeWhile (fun e => decide ((0 : Nat) ≤ e.published))
        = cexFeedC2 := takeWhile_all_eq _ _ hall
    have hfl : cexFeedC2.length = 2300 := by
      unfold cexFeedC2
      simp
    have hbig : (iter_today_entries cexFeedC2 0 2000 200).length = 2300 := by
      rw [hcontra, htw, hfl]
    unfold iter_today_entries at hbig
    omega

/-- C2 as amended: for every feed of entries whose published dates are
strictly decreasing, provided fewer than `maxResults` entries are in range
(so the date boundary — or feed exhaustion — is reached before the
`fetched < max_results` cap stops the pagination) and the page size is
positive, the scan yields exactly the prefix of entries with date ≥ the
target date; it stops at the first entry dated before the target, yielding
neither it nor any later entry of that page or any subsequent page. -/
theorem scan_boundary_prefix (feed : List RawEntry)
    (today maxResults pageSize : Nat)
    (hdec : feed.Pairwise (fun a b => b.published < a.published))
    (hps : 0 < pageSize)
    (hpre : (feed.takeWhile (fun e => decide (today ≤ e.published))).length
      < maxResults) :
    iter_today_entries feed today maxResults pageSize =
      feed.takeWhile (fun e => decide (today ≤ e.published)) := by
  unfold iter_today_entries
  have h := scanLoop_spec feed today maxResults pageSize hps hpre
    (maxResults + 1) 0 0 (by omega) (by simp) (by simp)
  rw [List.drop_zero] at h
  exact h

/-- Witness for the amended C2 at a concrete input: a strictly descending
two-entry feed around the boundary day 4 with the source's default scan
parameters. -/
theorem scan_boundary_prefix_witness :
    witFeedC2.Pairwise (fun a b => b.published < a.published) ∧
      0 < 200 ∧
      (witFeedC2.takeWhile (fun e => decide ((4 : Nat) ≤ e.published))).length
        < 2000 ∧
      iter_today_entries witFeedC2 4 2000 200 =
        witFeedC2.takeWhile (fun e => decide ((4 : Nat) ≤ e.published)) :=
  ⟨by decide, by decide, by decide,
   scan_boundary_prefix witFeedC2 4 2000 200 (by decide) (by decide) (by decide)⟩

theorem mainRun_eq_of_parsed (st : StoreState) (feed : List RawEntry)
    (today : Nat) (ts : String)
    (parsed : List (Paper × List AuthorLink × List CategoryLink))
    (h : parseAll (iter_today_entries feed today 2000 200) = some parsed)
    (hne : parsed ≠ []) :
    mainRun st feed today ts = some
      { papers := mergePapers st.papers (parsed.map (fun t => t.1))
        authors := mergeAuthors st.authors
          ((parsed.map (fun t => t.2.1)).flatten)
        categories := mergeCategories st.categories
          ((parsed.map (fun t => t.2.2)).flatten)
        runLog := some (st.runLog.getD [] ++
          [{ run_utc := ts
             new_papers :=
               (dedupFirstBy Paper.key (parsed.map (fun t => t.1))).length
             total_papers :=
               (mergePapers st.papers (parsed.map (fun t => t.1))).length }]) } := by
  have hmap : (parsed.map (fun t => t.1)).isEmpty = false := by
    simp [List.isEmpty_iff, hne]
  simp only [mainRun, h, hmap]
  simp

/-- C6 counterexample: an ingestion run whose scan yields no entries prints
and returns before touching the ledger.  With the ledger present and empty
and an empty feed, the run completes and the ledger still has 0 rows — not
the 0 + 1 = 1 rows the claim requires of every run. -/
theorem run_ledger_zero_run_cex :
    (mainRun st6 [] 0 "t").isSome = true ∧
      (mainRun st6 [] 0 "t").map (fun s => (s.runLog.getD []).length) ≠
        some ((st6.runLog.getD []).length + 1) := by
  constructor
  · decide
  · decide

/-- C6 as amended: every ingestion run that completes and whose scan yields
at least one entry appends exactly one row to the run ledger; a run that
scans zero entries returns early and appends none (counterexample above). -/
theorem run_ledger_appends_one (st : StoreState) (feed : List RawEntry)
    (today : Nat) (ts : String)
    (parsed : List (Paper × List AuthorLink × List CategoryLink))
    (h : parseAll (iter_today_entries feed today 2000 200) = some parsed)
    (hne : parsed ≠ []) :
    (mainRun st feed today ts).map (fun s => (s.runLog.getD []).length) =
      some ((st.runLog.getD []).length + 1) := by
  rw [mainRun_eq_of_parsed st feed today ts parsed h hne]
  simp

/-- Witness for the amended C6: a one-entry feed, a present empty ledger;
after the run the ledger has exactly one row. -/
theorem run_ledger_appends_one_witness :
    parseAll (iter_today_entries [wEntry] 5 2000 200)
        = some [(wPaper, [], [])] ∧
      ([(wPaper, [], [])] :
        List (Paper × List AuthorLink × List CategoryLink)) ≠ [] ∧
      (mainRun st6 [wEntry] 5 "t").map (fun s => (s.runLog.getD []).length) =
        some ((st6.runLog.getD []).length + 1) :=
  ⟨by decide, by decide,
   run_ledger_appends_one st6 [wEntry] 5 "t" [(wPaper, [], [])]
     (by decide) (by decide)⟩

/-- C10: in the ledger row written by a completing ingestion run with a
nonempty scan, `new_papers` equals the number of distinct `paper_id_version`
keys among the scanned (parsed) papers — keys already present in the
persisted Paper table included — and `total_papers` equals the row count of
the merged Paper table.  Consequently the total can grow by strictly less
than `new_papers` between consecutive runs (see the witness, where the total
grows by 0 while `new_papers` is 1). -/
theorem run_ledger_counts (st : StoreState) (feed : List RawEntry)
    (today : Nat) (ts : String)
    (parsed : List (Paper × List AuthorLink × List CategoryLink))
    (h : parseAll (iter_today_entries feed today 2000 200) = some parsed)
    (hne : parsed ≠ []) :
    mainRun st feed today ts = some
      { papers := mergePapers st.papers (parsed.map (fun t => t.1))
        authors := mergeAuthors st.authors
          ((parsed.map (fun t => t.2.1)).flatten)
        categories := mergeCategories st.categories
          ((parsed.map (fun t => t.2.2)).flatten)
        runLog := some (st.runLog.getD [] ++
          [{ run_utc := ts
             new_papers :=
               (((parsed.map (fun t => t.1)).map Paper.key).toFinset).card
             total_papers :=
               (mergePapers st.papers (parsed.map (fun t => t.1))).length }]) } := by
  rw [mainRun_eq_of_parsed st feed today ts parsed h hne,
    dedupFirstBy_length]

/-- Witness for C10: the persisted table already holds the scanned paper's
key, so the run logs `new_papers = 1` while the total stays at 1 — the total
grew by strictly less than `new_papers`. -/
theorem run_ledger_counts_witness :
    parseAll (iter_today_entries [wEntry] 5 2000 200)
        = some [(wPaper, [], [])] ∧
      mainRun stW [wEntry] 5 "t" = some
        { papers := mergePapers stW.papers [wPaper]
          authors := mergeAuthors stW.authors []
          categories := mergeCategories stW.categories []
          runLog := some (stW.runLog.getD [] ++
            [{ run_utc := "t"
               new_papers := (([wPaper].map Paper.key).toFinset).card
               total_papers := (mergePapers stW.papers [wPaper]).length }]) } ∧
      (mergePapers stW.papers [wPaper]).length = stW.papers.length ∧
      (([wPaper].map Paper.key).toFinset).card = 1 :=
  ⟨by decide,
   run_ledger_counts stW [wEntry] 5 "t" [(wPaper, [], [])]
     (by decide) (by decide),
   by decide, by decide⟩

section ParseLemmas

theorem foldl_digits_ge_one (ds : List Char) :
    ∀ acc : Nat, 1 ≤ acc →
      1 ≤ ds.foldl (fun acc c => acc * 10 + (c.toNat - '0'.toNat)) acc := by
  induction ds with
  | nil =>
    intro acc h
    simpa using h
  | cons d ds ih =>
    intro acc h
    simp only [List.foldl_cons]
    apply ih
    omega

theorem digit_val_ge_one (c : Char) (h : c.isDigit = true) (hne : c ≠ '0') :
    1 ≤ c.toNat - '0'.toNat := by
  simp only [Char.isDigit] at h
  rw [Bool.and_eq_true] at h
  obtain ⟨h1, h2⟩ := h
  have h1' : (48 : UInt32) ≤ c.val := by
    simpa using h1
  have h48 : (48 : Nat) ≤ c.val.toNat := UInt32.le_toNat_of_le (by decide) h1'
  have hne48 : c.toNat ≠ 48 := by
    intro he
    apply hne
    apply Char.ext
    apply UInt32.toNat.inj
    simpa using he
  have h0 : '0'.toNat = 48 := rfl
  have hct : c.toNat = c.val.toNat := rfl
  omega

theorem digitsToNat_ge_one (c : Char) (rest : List Char)
    (hd : c.isDigit = true) (hne : c ≠ '0') :
    1 ≤ digitsToNat (c :: rest) := by
  unfold digitsToNat
  simp only [List.foldl_cons]
  apply foldl_digits_ge_one
  have := digit_val_ge_one c hd hne
  omega

end ParseLemmas

/-- C7: normalizing an entry whose identifier URL ends in `2501.01234v2`
yields `paper_id_version = "2501.01234v2"`, `paper_id = "2501.01234"` and
`version = 2` — the integer after the `v` separator. -/
theorem parse_entry_round_trip :
    (parse_entry e7).map
      (fun t => (t.1.paper_id_version, t.1.paper_id, t.1.version)) =
      some ("2501.01234v2", "2501.01234", 2) := by
  decide

/-- C8 counterexample: the normalizer accepts the id `.../abs/1234v0`
(it splits into `1234` and `0` and `int("0")` succeeds) and records
`version = 0`, so an accepted entry need not have `version ≥ 1`. -/
theorem parse_version_zero_cex :
    (parse_entry e8).map (fun t => decide (1 ≤ t.1.version)) = some false := by
  decide

/-- C8 as amended: for every entry the normalizer accepts, `version` is the
integer parsed from the suffix after the `v` separator, and it is ≥ 1
whenever that suffix is a digit string not beginning with `0` (as every real
arXiv version suffix is).  The code itself enforces no lower bound: an id
with suffix `0` is accepted with `version = 0` (see the counterexample). -/
theorem parse_version_ge_one (e : RawEntry) (v : Int)
    (hv : (parse_entry e).map (fun t => t.1.version) = some v)
    (base vstr : String)
    (hsplit : pySplit 'v' ((pySplit '/' e.id).getLastD "") = [base, vstr])
    (hdig : vstr.data.all Char.isDigit = true)
    (hlead : vstr.data.head? ≠ some '0') :
    1 ≤ v := by
  simp only [parse_entry, hsplit] at hv
  rcases hpy : pyInt vstr with _ | w
  · rw [hpy] at hv
    simp at hv
  · rw [hpy] at hv
    simp only [Option.map_some] at hv
    have hvw : w = v := by
      simpa using hv
    subst hvw
    unfold pyInt at hpy
    rcases hd : vstr.data with _ | ⟨c, rest⟩
    · rw [hd] at hpy
      simp [pyIntChars] at hpy
    · rw [hd] at hpy
      rw [hd] at hdig hlead
      simp only [List.all_cons, Bool.and_eq_true] at hdig
      obtain ⟨hdc, hdrest⟩ := hdig
      have hc0 : c ≠ '0' := by
        intro hceq
        apply hlead
        rw [hceq]
        rfl
      have hcm : c ≠ '-' := by
        intro hceq
        rw [hceq] at hdc
        exact absurd hdc (by decide)
      have hcp : c ≠ '+' := by
        intro hceq
        rw [hceq] at hdc
        exact absurd hdc (by decide)
      rw [pyIntChars] at hpy
      rw [if_neg hcm, if_neg hcp] at hpy
      unfold digitsVal at hpy
      rw [if_pos ⟨List.cons_ne_nil c rest, by simp [hdc, hdrest]⟩] at hpy
      simp at hpy
      have h1 := digitsToNat_ge_one c rest hdc hc0
      omega

/-- Witness for the amended C8: the id `.../abs/1234v3` has the all-digit
suffix `3` with no leading zero, and the parsed version is 3 ≥ 1. -/
theorem parse_version_ge_one_witness :
    (parse_entry e8w).map (fun t => t.1.version) = some 3 ∧
      pySplit 'v' ((pySplit '/' e8w.id).getLastD "") = ["1234", "3"] ∧
      ("3" : String).data.all Char.isDigit = true ∧
      ("3" : String).data.head? ≠ some '0' ∧
      (1 : Int) ≤ 3 :=
  ⟨by decide, by decide, by decide, by decide,
   parse_version_ge_one e8w 3 (by decide) "1234" "3" (by decide) (by decide)
     (by decide)⟩

section EnrichLemmas

theorem enrichRows_keys_nodup (papers : List Paper) (today : Nat)
    (hn : (papers.map Paper.key).Nodup) :
    ((enrichRows papers today).map EnrichRow.key).Nodup := by
  unfold enrichRows
  rw [List.map_map]
  have hfun : (EnrichRow.key ∘ mkEnrichRow) = Paper.key := by
    funext p
    rfl
  rw [hfun]
  exact List.Nodup.sublist
    ((List.filter_sublist papers).map Paper.key) hn

theorem mkEnrichRow_mem_enrichRows {papers : List Paper} {p : Paper}
    {today : Nat} (hp : p ∈ papers) (hd : p.published = today) :
    mkEnrichRow p ∈ enrichRows papers today := by
  unfold enrichRows
  exact List.mem_map_of_mem _ (List.mem_filter.mpr ⟨hp, by simp [hd]⟩)

end EnrichLemmas

/-- C9: running the enrichment pass twice over an unchanged Paper table
(whose keys are unique, the invariant the ingestion merge maintains) yields
an Enrichment table with no duplicate `paper_id_version` keys and, for each
paper published on the target day, exactly one row; that row — hence its tag
set — is the same after both runs: the row recomputed from the paper. -/
theorem enrich_twice_upsert (papers : List Paper)
    (prev0 : Option (List EnrichRow)) (today : Nat)
    (E1 E2 : List EnrichRow)
    (hn : (papers.map Paper.key).Nodup)
    (h1 : enrichRun papers prev0 today = some E1)
    (h2 : enrichRun papers (some E1) today = some E2) :
    (E2.map EnrichRow.key).Nodup ∧
      ∀ p ∈ papers, p.published = today →
        E2.find? (fun r => decide (EnrichRow.key r = Paper.key p))
            = some (mkEnrichRow p) ∧
          E1.find? (fun r => decide (EnrichRow.key r = Paper.key p))
            = some (mkEnrichRow p) := by
  have hrowsnodup : ((enrichRows papers today).map EnrichRow.key).Nodup :=
    enrichRows_keys_nodup papers today hn
  unfold enrichRun at h1 h2
  by_cases hre : (enrichRows papers today).isEmpty = true
  · rw [if_pos hre] at h2
    exact absurd h2 (by simp)
  · rw [if_neg hre] at h1 h2
    have hE2 : E2 = dedupLastBy EnrichRow.key
        (E1 ++ enrichRows papers today) := by
      simp only [Option.some.injEq] at h2
      exact h2.symm
    have hE2nodup : (E2.map EnrichRow.key).Nodup := by
      rw [hE2]
      exact dedupLastBy_keys_nodup _
    refine ⟨hE2nodup, ?_⟩
    intro p hp hpd
    have hmem : mkEnrichRow p ∈ enrichRows papers today :=
      mkEnrichRow_mem_enrichRows hp hpd
    have hkeq : EnrichRow.key (mkEnrichRow p) = Paper.key p := rfl
    constructor
    · refine find?_eq_some_of_keys_nodup hE2nodup ?_ hkeq
      rw [hE2]
      exact mem_dedupLastBy_of_mem hrowsnodup hmem
    · rcases prev0 with _ | pr
      · have hE1 : E1 = enrichRows papers today := by
          simp only [Option.some.injEq] at h1
          exact h1.symm
        refine find?_eq_some_of_keys_nodup ?_ ?_ hkeq
        · rw [hE1]
          exact hrowsnodup
        · rw [hE1]
          exact hmem
      · have hE1 : E1 = dedupLastBy EnrichRow.key
            (pr ++ enrichRows papers today) := by
          simp only [Option.some.injEq] at h1
          exact h1.symm
        refine find?_eq_some_of_keys_nodup ?_ ?_ hkeq
        · rw [hE1]
          exact dedupLastBy_keys_nodup _
        · rw [hE1]
          exact mem_dedupLastBy_of_mem hrowsnodup hmem

/-- Witness for C9 at a concrete input: a one-paper table published on day
0, enriched twice starting from an absent Enrichment table. -/
theorem enrich_twice_upsert_witness :
    ([p9].map Paper.key).Nodup ∧
      enrichRun [p9] none 0 = some [mkEnrichRow p9] ∧
      enrichRun [p9] (some [mkEnrichRow p9]) 0 = some [mkEnrichRow p9] ∧
      (([mkEnrichRow p9].map EnrichRow.key).Nodup ∧
        ∀ p ∈ [p9], p.published = 0 →
          [mkEnrichRow p9].find?
              (fun r => decide (EnrichRow.key r = Paper.key p))
              = some (mkEnrichRow p) ∧
            [mkEnrichRow p9].find?
              (fun r => decide (EnrichRow.key r = Paper.key p))
              = some (mkEnrichRow p)) :=
  ⟨by decide, by decide, by decide,
   enrich_twice_upsert [p9] none 0 [mkEnrichRow p9] [mkEnrichRow p9]
     (by decide) (by decide) (by decide)⟩
